import Mathlib

/-!
Verification of the core simulation engine of the `cube` repository
(`src/main.c`, the draft containing the `History` ring buffer): the
four-phase Game-of-Life field, its toroidal indexing, the bounded history
ring buffer, and the controller tick.

Conventions of the embedding:
* C `u8` cell values are `Nat` (the source stores `State` enum values in
  `u8` cells, so a cell may hold any byte).
* C `i32` coordinates are `Int`; the `%` operator of C is truncating
  division remainder, i.e. `Int.tmod`.
* The `u32` index computation `stride * y + x` performed on wrapped
  coordinates is taken modulo `2 ^ 32`, as in the source.
* History cursors `start`/`end` are C `u32` counters.  The bit-exact
  model is `historyPushU32`/`historyGetItemU32`/`historySizeU32`, whose
  cursor values wrap at `2 ^ 32` exactly as the source's do;
  `historyPush`/`historyGetItem`/`historySize` are the unbounded-counter
  idealization, proven (`historyPushU32_eq`, `historyPushAllU32_eq`) to
  coincide with the bit-exact model while fewer than `2 ^ 32` generations
  have been pushed.  The difference-based history claims hold in both
  models; the indexed-retrieval claim C4 is settled against the bit-exact
  one.
* The history byte array `data` is a flat `List Nat` of
  `elem_size * size` bytes, exactly as allocated by `historyCreate`.
* `f64` wall-clock times are modelled as `ℚ`; the claims checked here
  depend only on the outcome of the single time comparison, not on
  floating-point rounding.
* Buffers are `List Nat`; reads use `List.getD _ 0`.  The C code guards
  every read by `assertf (idx < len)` and aborts otherwise; theorems below
  are stated on inputs where that assertion holds (where it does not, as in
  the `modi32` analysis, this is called out explicitly).
-/

namespace Cube

/-- `State` enum, `main.c` lines 554-559.  Values are the source's explicit
`u8` representations; note `1` and everything above `4` are not states. -/
def EMPTY : Nat := 0

def DEAD : Nat := 2

def DIYING : Nat := 3

def ALIVE : Nat := 4

/-- `modi32`, `main.c` lines 516-521: `if (a < 0) return (b + a) % b; return a % b;`
with C's truncating `%` (`Int.tmod`). -/
def modi32 (a b : Int) : Int :=
  if a < 0 then (b + a).tmod b else a.tmod b

/-- Range of a C `u32`. -/
def U32 : Nat := 2 ^ 32

/-- `Field`, `main.c` lines 562-569: square grid of side `stride`, with the
current byte buffer and the scratch buffer for the next generation. -/
structure Field where
  stride : Nat
  current : List Nat
  next : List Nat
deriving DecidableEq

/-- `fieldInit`, `main.c` lines 572-577: `calloc`s two zero-filled
`stride * stride` byte buffers.  There is no check whatsoever on `stride`;
a plain `calloc(0, 1)` is performed for `stride == 0`. -/
def fieldInit (stride : Nat) : Field :=
  { stride := stride
    current := List.replicate (stride * stride) 0
    next := List.replicate (stride * stride) 0 }

/-- `cellIndex`, `main.c` lines 585-592: wraps both coordinates through
`modi32` and forms the `u32` index `stride * y + x` (computed in `u32`
arithmetic, hence the reduction modulo `2 ^ 32`). -/
def cellIndex (stride : Nat) (x y : Int) : Nat :=
  ((((stride : Int) * modi32 y (stride : Int) + modi32 x (stride : Int)) % (U32 : Int))).toNat

/-- `fieldCellSet`, `main.c` lines 605-608: writes a state byte into the
current buffer at the wrapped index. -/
def fieldCellSet (f : Field) (x y : Int) (state : Nat) : Field :=
  { f with current := f.current.set (cellIndex f.stride x y) state }

/-- `fieldCellState`, `main.c` lines 616-619: reads the current buffer at
the wrapped index (the source asserts `idx < len` first). -/
def fieldCellState (f : Field) (x y : Int) : Nat :=
  f.current.getD (cellIndex f.stride x y) 0

/-- `fieldCellIsAlive`, `main.c` lines 622-624. -/
def fieldCellIsAlive (f : Field) (x y : Int) : Bool :=
  fieldCellState f x y == ALIVE

/-- The branch body of `fieldNext`, `main.c` lines 641-657: the transition
rule as a function of the alive-neighbor count and the current cell byte. -/
def stateNext (alive_neighbors : Nat) (state : Nat) : Nat :=
  if alive_neighbors = 3 ∨ (alive_neighbors = 2 ∧ state = ALIVE) then ALIVE
  else if state = ALIVE then DIYING
  else if state = DIYING then DEAD
  else if state = DEAD then DEAD
  else EMPTY

/-- `fieldNext`, `main.c` lines 628-658: counts the alive cells of the
8-cell Moore neighborhood (S, SW, W, NW, N, NE, E, SE, in source order),
then applies the transition rule to the cell's own state. -/
def fieldNext (f : Field) (x y : Int) : Nat :=
  let alive_neighbors : Nat :=
    (fieldCellIsAlive f x (y + 1)).toNat +
    (fieldCellIsAlive f (x - 1) (y + 1)).toNat +
    (fieldCellIsAlive f (x - 1) y).toNat +
    (fieldCellIsAlive f (x - 1) (y - 1)).toNat +
    (fieldCellIsAlive f x (y - 1)).toNat +
    (fieldCellIsAlive f (x + 1) (y - 1)).toNat +
    (fieldCellIsAlive f (x + 1) y).toNat +
    (fieldCellIsAlive f (x + 1) (y + 1)).toNat
  stateNext alive_neighbors (fieldCellState f x y)

/-- `fieldUpdate`, `main.c` lines 661-679: for every `y` then every `x` the
loop writes `fieldNext` of the old field into the scratch buffer at
`fieldCellIndex(field, x, y)`; afterwards `memcpy` makes `current` a copy
of the fully computed scratch buffer. -/
def fieldUpdate (f : Field) : Field :=
  let next :=
    (List.range f.stride).foldl
      (fun acc y =>
        (List.range f.stride).foldl
          (fun acc2 x => acc2.set (cellIndex f.stride (x : Int) (y : Int))
            (fieldNext f (x : Int) (y : Int)))
          acc)
      f.next
  { f with current := next, next := next }

/-- Modelled from the spec (§4.1 `get`): the floored-modulo wrap the
specification prescribes for negative coordinates, written exactly as its
formula `((coord % stride) + stride) % stride` with C's truncating `%`. -/
def specFlooredMod (coord stride : Int) : Int :=
  ((coord.tmod stride) + stride).tmod stride

/-- `History`, `main.c` lines 685-698.  `end` is a Lean keyword, hence the
field name `end_`.  The source stores `start`/`end` as `u32`; here they
are `Nat` fields, and the bit-exact operations (`historyPushU32` and
friends) keep their values below `2 ^ 32` with the source's wrapping
arithmetic, while the idealized operations let them grow unboundedly.
`data` is the flat byte array of `elem_size * size` bytes allocated by
`historyCreate`. -/
structure History where
  size : Nat
  elem_size : Nat
  start : Nat
  end_ : Nat
  data : List Nat
deriving DecidableEq

/-- `historyCreate`, `main.c` lines 701-710.  The C allocation is
uninitialized (`gmalloc`); its content is modelled as zeros — no theorem
below reads a byte that has not been written by a push. -/
def historyCreate (elem_size size : Nat) : History :=
  { size := size
    elem_size := elem_size
    start := 0
    end_ := 0
    data := List.replicate (elem_size * size) 0 }

/-- `historyDataIndex`, `main.c` lines 712-716: physical slot of a logical
cursor value. -/
def historyDataIndex (h : History) (index : Nat) : Nat :=
  index % h.size

/-- `historyPush`, `main.c` lines 719-735: copies `elem_size` bytes of the
field's current buffer into physical slot `end mod size`, increments `end`,
and advances `start` by the overflow if `end - start` now exceeds `size`.
The `memcpy` of `elem_size` bytes starting at offset `write * elem_size` is
the take/append/drop splice below.  (The source first asserts
`elem_size == stride * stride`; theorems state that condition as the
hypothesis `snapshot.length = h.elem_size`.)  This version idealizes the
`u32` cursors as unbounded counters; `historyPushU32` below is the
bit-exact version, and the two agree until the `2 ^ 32`-th push
(`historyPushU32_eq`). -/
def historyPush (h : History) (snapshot : List Nat) : History :=
  let write := historyDataIndex h h.end_
  let data :=
    h.data.take (write * h.elem_size) ++
      (snapshot.take h.elem_size ++ h.data.drop (write * h.elem_size + h.elem_size))
  let newEnd := h.end_ + 1
  let diff := newEnd - h.start
  let newStart := if diff > h.size then h.start + (diff - h.size) else h.start
  { h with data := data, end_ := newEnd, start := newStart }

/-- `historyGetItem`, `main.c` lines 740-752: returns the `elem_size`-byte
view at physical slot `(start + i) mod size` when `i < end - start`, and a
not-found result otherwise.  The C version aliases the caller's `Field`
into the ring storage and returns `bool`; the view itself is returned here. -/
def historyGetItem (h : History) (i : Nat) : Option (List Nat) :=
  let len := h.end_ - h.start
  if i ≥ len then none
  else
    let data_index := historyDataIndex h (h.start + i)
    some ((h.data.drop (data_index * h.elem_size)).take h.elem_size)

/-- `historySize`, `main.c` lines 755-757. -/
def historySize (h : History) : Nat :=
  h.end_ - h.start

/-- A sequence of `historyPush` calls, oldest first (`foldl`). -/
def historyPushAll (h : History) (snaps : List (List Nat)) : History :=
  snaps.foldl historyPush h

/-- `historyPush` with the source's `u32` cursor arithmetic taken
bit-exactly: `history->end++` wraps at `2^32`, `end - start` is `u32`
subtraction (`(a + 2^32 - b) % 2^32` for values below `2^32`), and the
`start += diff - size` advance wraps likewise.  All cursor values stay
below `2^32`.  `historyPushU32_eq` below proves this agrees with
`historyPush` while the push counter has not yet wrapped. -/
def historyPushU32 (h : History) (snapshot : List Nat) : History :=
  let write := historyDataIndex h h.end_
  let data :=
    h.data.take (write * h.elem_size) ++
      (snapshot.take h.elem_size ++ h.data.drop (write * h.elem_size + h.elem_size))
  let newEnd := (h.end_ + 1) % U32
  let diff := (newEnd + U32 - h.start) % U32
  let newStart := if diff > h.size then (h.start + (diff - h.size)) % U32 else h.start
  { h with data := data, end_ := newEnd, start := newStart }

/-- `historyGetItem` with `u32` cursor arithmetic: `len = end - start` and
`start + i` are computed in `u32` (cursor values below `2^32`). -/
def historyGetItemU32 (h : History) (i : Nat) : Option (List Nat) :=
  let len := (h.end_ + U32 - h.start) % U32
  if i ≥ len then none
  else
    let data_index := historyDataIndex h ((h.start + i) % U32)
    some ((h.data.drop (data_index * h.elem_size)).take h.elem_size)

/-- `historySize` with `u32` subtraction. -/
def historySizeU32 (h : History) : Nat :=
  (h.end_ + U32 - h.start) % U32

/-- A sequence of `historyPushU32` calls, oldest first. -/
def historyPushAllU32 (h : History) (snaps : List (List Nat)) : History :=
  snaps.foldl historyPushU32 h

/-- Generation data stream used to exhibit the `u32` cursor wrap: the
`g`-th pushed snapshot is the single byte `g % 2`, so consecutive
generations carry different data. -/
def wrapSnaps (n : Nat) : List (List Nat) :=
  (List.range n).map fun g => [g % 2]

/-- `Game`, `main.c` lines 765-784.  The raylib `Rectangle` is pure
rendering geometry and enters the core only through the pointer-to-cell
mapping, which is modelled at the cell level in `Input`. -/
structure Game where
  field : Field
  history : History
  selected : Bool
  x : Int
  y : Int
  pause : Bool
  seconds_per_tick : ℚ
  last_tick_at : ℚ

/-- One frame's polled inputs for `gameUpdate`: `space` = KEY_SPACE pressed,
`enter` = KEY_ENTER pressed, `mouse = some (leftPressed, cellX, cellY)`
when the pointer is inside the field rectangle (already mapped to the cell
grid, the mapping itself being float geometry), `time` = `GetTime()`. -/
structure Input where
  space : Bool
  enter : Bool
  mouse : Option (Bool × Int × Int)
  time : ℚ

/-- `gameSaveHistoryState`, `main.c` lines 809-811: pushes the current field
(its `current` buffer) onto the history. -/
def gameSaveHistoryState (g : Game) : Game :=
  { g with history := historyPush g.history g.field.current }

/-- The input-handling prefix of `gameUpdate`, `main.c` lines 815-841:
pause toggle on space, then (while paused, pointer inside the rectangle)
either toggle the hovered cell between `ALIVE` and `DEAD` on a left click
or record it as the selected cell. -/
def gameApplyInputs (g : Game) (inp : Input) : Game :=
  let pause := if inp.space then !g.pause else g.pause
  let g1 := { g with pause := pause }
  if pause then
    match inp.mouse with
    | some (click, mx, my) =>
      if click then
        let alive := fieldCellIsAlive g1.field mx my
        { g1 with field := fieldCellSet g1.field mx my (if alive then DEAD else ALIVE)
                  selected := true }
      else
        { g1 with x := mx, y := my, selected := true }
    | none => g1
  else
    { g1 with selected := false }

/-- The `should_update` condition of `gameUpdate`, `main.c` lines 844-845:
an explicit Enter step while paused, or an elapsed tick interval while
running. -/
def gameShouldUpdate (g : Game) (inp : Input) : Bool :=
  (g.pause && inp.enter) ||
    (!g.pause && decide (inp.time - g.last_tick_at > g.seconds_per_tick))

/-- `gameUpdate`, `main.c` lines 814-853: apply the inputs, then — when
`should_update` holds — save the field to history, advance the field, and
record the tick time, in that order. -/
def gameUpdate (g : Game) (inp : Input) : Game :=
  let g2 := gameApplyInputs g inp
  if gameShouldUpdate g2 inp then
    let g3 := gameSaveHistoryState g2
    { g3 with field := fieldUpdate g3.field, last_tick_at := inp.time }
  else g2

/-- Histories reachable from `historyCreate es size` by pushes that satisfy
the source's `elem_size == stride * stride` assertion (every pushed
`current` buffer has `elem_size` bytes). -/
inductive HistReachable (es size : Nat) : History → Prop
  | create : HistReachable es size (historyCreate es size)
  | push (h : History) (snapshot : List Nat) :
      HistReachable es size h → snapshot.length = es →
      HistReachable es size (historyPush h snapshot)

/-! ### Arithmetic facts about the wrap and the index computation -/

theorem modi32_of_nonneg_lt {a b : Int} (h0 : 0 ≤ a) (hlt : a < b) : modi32 a b = a := by
  unfold modi32
  rw [if_neg (by omega)]
  exact Int.tmod_eq_of_lt h0 hlt

theorem modi32_range {a b : Int} (hb : 0 < b) (ha : -b ≤ a) :
    0 ≤ modi32 a b ∧ modi32 a b < b := by
  unfold modi32
  split
  · have h1 : 0 ≤ b + a := by omega
    have h2 : b + a < b := by omega
    rw [Int.tmod_eq_of_lt h1 h2]
    omega
  · rename_i h
    exact ⟨Int.tmod_nonneg b (by omega), Int.tmod_lt_of_pos a hb⟩

theorem cellIndex_coe (s x y : Nat) (hx : x < s) (hy : y < s) (hb : s * s < U32) :
    cellIndex s (x : Int) (y : Int) = s * y + x := by
  unfold cellIndex
  rw [modi32_of_nonneg_lt (Int.ofNat_nonneg x) (by exact_mod_cast hx),
    modi32_of_nonneg_lt (Int.ofNat_nonneg y) (by exact_mod_cast hy)]
  have hxy : s * y + x < s * s := by
    calc s * y + x < s * y + s := by omega
    _ = s * (y + 1) := by ring
    _ ≤ s * s := Nat.mul_le_mul_left s (by omega)
  have hcast : (s : Int) * (y : Int) + (x : Int) = ((s * y + x : Nat) : Int) := by
    push_cast; ring
  rw [hcast, Int.emod_eq_of_lt (by positivity) (by exact_mod_cast (by omega : s * y + x < U32))]
  omega

theorem getD_replicate_zero (n i : Nat) : (List.replicate n (0 : Nat)).getD i 0 = 0 := by
  rw [List.getD_eq_getElem?_getD, List.getElem?_replicate]
  split <;> rfl

/-! ### Ring-buffer slot lemmas

`slotRead data es j` is the `es`-byte view starting at byte offset
`j * es`, i.e. what `historyGetItem` returns for physical slot `j`; the
take/append/drop splice below is the `memcpy` performed by `historyPush`. -/

def slotRead (data : List Nat) (es j : Nat) : List Nat :=
  (data.drop (j * es)).take es

theorem slotWrite_length {data snap : List Nat} {es w : Nat}
    (hw : w * es + es ≤ data.length) (hs : es ≤ snap.length) :
    (data.take (w * es) ++ (snap.take es ++ data.drop (w * es + es))).length =
      data.length := by
  simp only [List.length_append, List.length_take, List.length_drop]
  omega

theorem slotRead_write_self {data snap : List Nat} {es w : Nat}
    (hw : w * es + es ≤ data.length) (hs : snap.length = es) :
    slotRead (data.take (w * es) ++ (snap.take es ++ data.drop (w * es + es))) es w =
      snap := by
  unfold slotRead
  rw [List.drop_left' (by simp only [List.length_take]; omega)]
  rw [List.take_left' (by simp only [List.length_take]; omega)]
  exact List.take_of_length_le (by omega)

theorem slotRead_write_ne {data snap : List Nat} {es w j : Nat}
    (hj : j * es + es ≤ data.length) (hw : w * es + es ≤ data.length)
    (hne : j ≠ w) (hs : snap.length = es) :
    slotRead (data.take (w * es) ++ (snap.take es ++ data.drop (w * es + es))) es j =
      slotRead data es j := by
  unfold slotRead
  rcases Nat.lt_or_ge j w with hlt | hge
  · have hje : j * es + es ≤ w * es := by
      have h1 : (j + 1) * es ≤ w * es := Nat.mul_le_mul_right es (by omega)
      have h2 : (j + 1) * es = j * es + es := by ring
      omega
    have hAlen : (data.take (w * es)).length = w * es := by
      simp only [List.length_take]; omega
    rw [List.drop_append_eq_append_drop, hAlen]
    have hz : j * es - w * es = 0 := by omega
    rw [hz, List.drop_zero, List.take_append_eq_append_take]
    have hYlen : (List.drop (j * es) (data.take (w * es))).length = w * es - j * es := by
      simp only [List.length_drop, List.length_take]; omega
    rw [hYlen]
    have hz2 : es - (w * es - j * es) = 0 := by omega
    rw [hz2, List.take_zero, List.append_nil, List.drop_take]
    rw [List.take_take]
    have hmin : min es (w * es - j * es) = es := by omega
    rw [hmin]
  · have hwj : w * es + es ≤ j * es := by
      have h1 : (w + 1) * es ≤ j * es := Nat.mul_le_mul_right es (by omega)
      have h2 : (w + 1) * es = w * es + es := by ring
      omega
    have hAlen : (data.take (w * es)).length = w * es := by
      simp only [List.length_take]; omega
    rw [List.drop_append_eq_append_drop, hAlen,
      List.drop_of_length_le (by rw [hAlen]; omega), List.nil_append,
      List.drop_append_eq_append_drop,
      List.drop_of_length_le (by rw [List.length_take]; omega)]
    have hslen : (snap.take es).length = es := by
      simp only [List.length_take]; omega
    rw [hslen, List.nil_append, List.drop_drop]
    have harith : w * es + es + (j * es - w * es - es) = j * es := by omega
    rw [harith]

/-- Two distinct cursor values less than one capacity apart land in distinct
physical slots. -/
theorem mod_ne_of_window {c j n : Nat} (hj : j < n) (hw : n < j + c) :
    j % c ≠ n % c := by
  intro hmod
  have hdvd : c ∣ n - j := (Nat.modEq_iff_dvd' (Nat.le_of_lt hj)).mp hmod
  have hle := Nat.le_of_dvd (by omega) hdvd
  omega

/-- State of a history after pushing a whole list of well-sized snapshots
onto a fresh history of capacity `c ≥ 1`: the cursors are `end = n`,
`start = n - c` (truncated subtraction), the backing array keeps its
allocated length, and the slot of every retained cursor value `j` holds the
`j`-th pushed snapshot. -/
theorem historyPushAll_state (es c : Nat) (hc : 1 ≤ c) (snaps : List (List Nat))
    (hes : ∀ s ∈ snaps, s.length = es) :
    (historyPushAll (historyCreate es c) snaps).size = c ∧
    (historyPushAll (historyCreate es c) snaps).elem_size = es ∧
    (historyPushAll (historyCreate es c) snaps).end_ = snaps.length ∧
    (historyPushAll (historyCreate es c) snaps).start = snaps.length - c ∧
    (historyPushAll (historyCreate es c) snaps).data.length = es * c ∧
    ∀ j, snaps.length - c ≤ j → j < snaps.length →
      (some (slotRead (historyPushAll (historyCreate es c) snaps).data es (j % c)) :
          Option (List Nat)) = snaps[j]? := by
  induction snaps using List.reverseRecOn with
  | nil =>
    refine ⟨rfl, rfl, rfl, by simp [historyPushAll, historyCreate], by simp [historyPushAll, historyCreate], ?_⟩
    intro j _ hj
    simp at hj
  | append_singleton xs s₀ ih =>
    have hes' : ∀ s ∈ xs, s.length = es := fun s hs =>
      hes s (List.mem_append_left _ hs)
    have hs₀ : s₀.length = es := hes s₀ (List.mem_append_right _ (List.mem_singleton_self s₀))
    obtain ⟨hsz, hel, hend, hst, hdl, hslots⟩ := ih hes'
    set h := historyPushAll (historyCreate es c) xs with hh
    have hstep : historyPushAll (historyCreate es c) (xs ++ [s₀]) = historyPush h s₀ := by
      simp [hh, historyPushAll, List.foldl_append]
    set n := xs.length with hn
    have hwrite : historyDataIndex h h.end_ = n % c := by
      rw [historyDataIndex, hend, hsz]
    have hwlt : n % c < c := Nat.mod_lt _ (by omega)
    have hwbound : (n % c) * es + es ≤ h.data.length := by
      rw [hdl]
      have h1 : (n % c) * es + es = (n % c + 1) * es := by ring
      have h2 : (n % c + 1) * es ≤ c * es := Nat.mul_le_mul_right es (by omega)
      have h3 : c * es = es * c := Nat.mul_comm c es
      omega
    rw [hstep]
    refine ⟨hsz, hel, ?_, ?_, ?_, ?_⟩
    · simp [historyPush, hend, hn]
    · simp only [historyPush, hend, hsz, hst, List.length_append, List.length_cons,
        List.length_nil]
      split <;> omega
    · simp only [historyPush, hel, hwrite]
      rw [slotWrite_length hwbound (by omega)]
      exact hdl
    · intro j hj1 hj2
      simp only [List.length_append, List.length_cons, List.length_nil] at hj1 hj2
      simp only [historyPush, hel, hwrite]
      rcases Nat.lt_or_ge j n with hjn | hjn
      · -- an older retained snapshot: its slot is untouched by this push
        have hne : j % c ≠ n % c := mod_ne_of_window hjn (by omega)
        have hjbound : (j % c) * es + es ≤ h.data.length := by
          rw [hdl]
          have h1 : (j % c) * es + es = (j % c + 1) * es := by ring
          have h2 : (j % c + 1) * es ≤ c * es :=
            Nat.mul_le_mul_right es (Nat.mod_lt _ (by omega))
          have h3 : c * es = es * c := Nat.mul_comm c es
          omega
        rw [slotRead_write_ne hjbound hwbound hne hs₀]
        rw [List.getElem?_append_left hjn]
        exact hslots j (by omega) hjn
      · -- the newest snapshot, just written at slot `n % c`
        have hjeq : j = n := by omega
        subst hjeq
        rw [slotRead_write_self hwbound hs₀]
        rw [List.getElem?_concat_length]

/-- Structural invariant of every reachable history: constant `size` and
`elem_size`, ordered cursors at most `size` apart, constant backing-array
length. -/
theorem histReachable_inv {es size : Nat} {h : History} (hsz : 1 ≤ size)
    (hr : HistReachable es size h) :
    h.size = size ∧ h.elem_size = es ∧ h.start ≤ h.end_ ∧
    h.end_ - h.start ≤ size ∧ h.data.length = es * size := by
  induction hr with
  | create =>
    refine ⟨rfl, rfl, Nat.le_refl _, by simp [historyCreate], by simp [historyCreate]⟩
  | push h0 snap hr0 hlen ih =>
    obtain ⟨h1, h2, h3, h4, h5⟩ := ih
    have hwbound : (h0.end_ % h0.size) * es + es ≤ h0.data.length := by
      rw [h5]
      have hm : h0.end_ % h0.size < size := h1 ▸ Nat.mod_lt _ (by omega)
      have ha : (h0.end_ % h0.size) * es + es = (h0.end_ % h0.size + 1) * es := by ring
      have hb : (h0.end_ % h0.size + 1) * es ≤ size * es := Nat.mul_le_mul_right es (by omega)
      have hcm : size * es = es * size := Nat.mul_comm size es
      omega
    refine ⟨h1, h2, ?_, ?_, ?_⟩
    · simp only [historyPush]
      split <;> omega
    · simp only [historyPush]
      split <;> omega
    · simp only [historyPush, historyDataIndex, h2, h1]
      rw [slotWrite_length (by rw [← h1, ← h2]; exact (h2 ▸ hwbound)) (by omega)]
      exact h5

/-! ### Agreement of the bit-exact `u32` cursor model with the idealization

Until the `2 ^ 32`-th push the source's wrapping cursor arithmetic computes
the same values as the unbounded idealization; past it the two diverge
(exploited by the C4 counterexample). -/

theorem historyPushU32_eq (h : History) (s : List Nat)
    (hse : h.start ≤ h.end_) (hend : h.end_ + 1 < U32) :
    historyPushU32 h s = historyPush h s := by
  unfold historyPushU32 historyPush
  dsimp only
  rw [Nat.mod_eq_of_lt hend]
  have hd : (h.end_ + 1 + U32 - h.start) % U32 = h.end_ + 1 - h.start := by
    have h1 : h.end_ + 1 + U32 - h.start = U32 + (h.end_ + 1 - h.start) := by omega
    rw [h1, Nat.add_mod_left]
    exact Nat.mod_eq_of_lt (by omega)
  rw [hd]
  by_cases hcond : h.end_ + 1 - h.start > h.size
  · rw [if_pos hcond, if_pos hcond,
      Nat.mod_eq_of_lt (show h.start + (h.end_ + 1 - h.start - h.size) < U32 by omega)]
  · rw [if_neg hcond, if_neg hcond]

theorem historyPushAllU32_eq (es c : Nat) (hc : 1 ≤ c) (snaps : List (List Nat))
    (hes : ∀ s ∈ snaps, s.length = es) (hn : snaps.length < U32) :
    historyPushAllU32 (historyCreate es c) snaps =
      historyPushAll (historyCreate es c) snaps := by
  induction snaps using List.reverseRecOn with
  | nil => rfl
  | append_singleton xs s₀ ih =>
    have hes' : ∀ s ∈ xs, s.length = es := fun s hs => hes s (List.mem_append_left _ hs)
    have hlen : xs.length + 1 < U32 := by
      simp only [List.length_append, List.length_cons, List.length_nil] at hn
      omega
    obtain ⟨hsz, hel, hend, hst, hdl, hslots⟩ := historyPushAll_state es c hc xs hes'
    have h1 : historyPushAllU32 (historyCreate es c) (xs ++ [s₀]) =
        historyPushU32 (historyPushAllU32 (historyCreate es c) xs) s₀ := by
      simp [historyPushAllU32, List.foldl_append]
    have h2 : historyPushAll (historyCreate es c) (xs ++ [s₀]) =
        historyPush (historyPushAll (historyCreate es c) xs) s₀ := by
      simp [historyPushAll, List.foldl_append]
    rw [h1, h2, ih hes' (by omega)]
    exact historyPushU32_eq _ s₀ (by rw [hend, hst]; omega) (by rw [hend]; omega)

theorem historyGetItemU32_eq (h : History) (i : Nat)
    (hse : h.start ≤ h.end_) (hend : h.end_ < U32) :
    historyGetItemU32 h i = historyGetItem h i := by
  unfold historyGetItemU32 historyGetItem
  dsimp only
  have hd : (h.end_ + U32 - h.start) % U32 = h.end_ - h.start := by
    have h1 : h.end_ + U32 - h.start = U32 + (h.end_ - h.start) := by omega
    rw [h1, Nat.add_mod_left]
    exact Nat.mod_eq_of_lt (by omega)
  rw [hd]
  by_cases hi : i ≥ h.end_ - h.start
  · rw [if_pos hi, if_pos hi]
  · rw [if_neg hi, if_neg hi,
      Nat.mod_eq_of_lt (show h.start + i < U32 by omega)]

theorem historySizeU32_eq (h : History)
    (hse : h.start ≤ h.end_) (hend : h.end_ < U32) :
    historySizeU32 h = historySize h := by
  unfold historySizeU32 historySize
  have h1 : h.end_ + U32 - h.start = U32 + (h.end_ - h.start) := by omega
  rw [h1, Nat.add_mod_left]
  exact Nat.mod_eq_of_lt (by omega)

theorem wrapSnaps_length (n : Nat) : (wrapSnaps n).length = n := by
  simp [wrapSnaps]

theorem wrapSnaps_sized (n : Nat) : ∀ s ∈ wrapSnaps n, s.length = 1 := by
  intro s hs
  simp only [wrapSnaps, List.mem_map] at hs
  obtain ⟨g, _, rfl⟩ := hs
  rfl

theorem wrapSnaps_getElem (n i : Nat) (h : i < n) :
    (wrapSnaps n)[i]? = some [i % 2] := by
  simp [wrapSnaps, h]

theorem wrapSnaps_succ (n : Nat) : wrapSnaps (n + 1) = wrapSnaps n ++ [[n % 2]] := by
  simp [wrapSnaps, List.range_succ]

theorem list_length_three {α : Type _} {l : List α} (h : l.length = 3) :
    ∃ a b c, l = [a, b, c] := by
  rcases l with _ | ⟨a, l⟩
  · simp at h
  rcases l with _ | ⟨b, l⟩
  · simp at h
  rcases l with _ | ⟨c, l⟩
  · simp at h
  rcases l with _ | ⟨d, l⟩
  · exact ⟨a, b, c, rfl⟩
  · simp at h

/-! ### The update loop writes each cell of the old field exactly once

The two lemmas below characterize the scratch buffer produced by the
nested loop of `fieldUpdate`: after the first `m` columns of row `y` (resp.
the first `mY` full rows), every processed position holds `fieldNext` of
the *old* field, and every other position is untouched.  `fieldNext` only
ever reads `f.current`, which the loop never writes, so no partially
updated cell can be observed. -/

theorem rowFold_getElem (f : Field) (y m : Nat) (acc : List Nat)
    (hy : y < f.stride) (hm : m ≤ f.stride) (hacc : acc.length = f.stride * f.stride)
    (hb : f.stride * f.stride < U32) :
    ((List.range m).foldl
        (fun acc2 x => acc2.set (cellIndex f.stride (x : Int) (y : Int))
          (fieldNext f (x : Int) (y : Int))) acc).length = f.stride * f.stride ∧
    ∀ j, j < f.stride * f.stride →
      ((List.range m).foldl
          (fun acc2 x => acc2.set (cellIndex f.stride (x : Int) (y : Int))
            (fieldNext f (x : Int) (y : Int))) acc)[j]? =
        if f.stride * y ≤ j ∧ j < f.stride * y + m
        then some (fieldNext f ((j - f.stride * y : Nat) : Int) (y : Int))
        else acc[j]? := by
  induction m with
  | zero =>
    refine ⟨by simpa using hacc, ?_⟩
    intro j hj
    rw [if_neg (by omega)]
    simp
  | succ m ih =>
    obtain ⟨ihlen, ihget⟩ := ih (by omega)
    rw [List.range_succ, List.foldl_append]
    simp only [List.foldl_cons, List.foldl_nil]
    rw [cellIndex_coe f.stride m y (by omega) hy hb]
    have hidx : f.stride * y + m < f.stride * f.stride := by
      have h1 : f.stride * (y + 1) = f.stride * y + f.stride := by ring
      have h2 : f.stride * (y + 1) ≤ f.stride * f.stride :=
        Nat.mul_le_mul_left f.stride (by omega)
      omega
    refine ⟨by rw [List.length_set, ihlen], ?_⟩
    intro j hj
    by_cases hjeq : j = f.stride * y + m
    · subst hjeq
      rw [List.getElem?_set_self (by rw [ihlen]; exact hidx)]
      rw [if_pos (by omega)]
      congr 2
      omega
    · rw [List.getElem?_set_ne (by omega)]
      rw [ihget j hj]
      rcases Nat.lt_or_ge j (f.stride * y + m) with hlt | hge
      · by_cases hlo : f.stride * y ≤ j
        · rw [if_pos (by omega), if_pos (by omega)]
        · rw [if_neg (by omega), if_neg (by omega)]
      · rw [if_neg (by omega), if_neg (by omega)]

theorem gridFold_getElem (f : Field) (mY : Nat) (acc : List Nat)
    (hmY : mY ≤ f.stride) (hacc : acc.length = f.stride * f.stride)
    (hb : f.stride * f.stride < U32) :
    ((List.range mY).foldl
        (fun acc y => (List.range f.stride).foldl
          (fun acc2 x => acc2.set (cellIndex f.stride (x : Int) (y : Int))
            (fieldNext f (x : Int) (y : Int))) acc) acc).length =
      f.stride * f.stride ∧
    ∀ j, j < f.stride * f.stride →
      ((List.range mY).foldl
          (fun acc y => (List.range f.stride).foldl
            (fun acc2 x => acc2.set (cellIndex f.stride (x : Int) (y : Int))
              (fieldNext f (x : Int) (y : Int))) acc) acc)[j]? =
        if j < f.stride * mY
        then some (fieldNext f ((j % f.stride : Nat) : Int) ((j / f.stride : Nat) : Int))
        else acc[j]? := by
  induction mY with
  | zero =>
    refine ⟨hacc, ?_⟩
    intro j hj
    rw [if_neg (by omega)]
    simp
  | succ mY ih =>
    obtain ⟨ihlen, ihget⟩ := ih (by omega)
    rw [List.range_succ, List.foldl_append]
    simp only [List.foldl_cons, List.foldl_nil]
    have hrow := rowFold_getElem f mY f.stride _ (by omega) (Nat.le_refl _) ihlen hb
    obtain ⟨rowlen, rowget⟩ := hrow
    have hs : 0 < f.stride := by omega
    refine ⟨rowlen, ?_⟩
    intro j hj
    rw [rowget j hj]
    rcases Nat.lt_or_ge j (f.stride * mY) with hlt | hge
    · rw [if_neg (by omega), ihget j hj, if_pos hlt,
        if_pos (by have hms : f.stride * (mY + 1) = f.stride * mY + f.stride := by ring
                   omega)]
    · rcases Nat.lt_or_ge j (f.stride * mY + f.stride) with hlt2 | hge2
      · rw [if_pos (by omega)]
        rw [if_pos (by have hms : f.stride * (mY + 1) = f.stride * mY + f.stride := by ring
                       omega)]
        have hr : j - f.stride * mY < f.stride := by omega
        have hj' : j = f.stride * mY + (j - f.stride * mY) := by omega
        have hmod : j % f.stride = j - f.stride * mY := by
          conv_lhs => rw [hj']
          rw [Nat.mul_add_mod]
          exact Nat.mod_eq_of_lt hr
        have hdiv : j / f.stride = mY := by
          conv_lhs => rw [hj']
          rw [Nat.mul_add_div hs, Nat.div_eq_of_lt hr]
          omega
        rw [hmod, hdiv]
      · rw [if_neg (by omega), ihget j hj, if_neg (by omega),
          if_neg (by have hms : f.stride * (mY + 1) = f.stride * mY + f.stride := by ring
                     omega)]

/-- The cell-level description of `fieldUpdate`: after the update, every
in-range cell holds `fieldNext` of the old field — the pure transition
function applied simultaneously to the pre-update grid. -/
theorem fieldUpdate_cellState (f : Field)
    (hnext : f.next.length = f.stride * f.stride)
    (hb : f.stride * f.stride < U32)
    (x y : Nat) (hx : x < f.stride) (hy : y < f.stride) :
    fieldCellState (fieldUpdate f) (x : Int) (y : Int) = fieldNext f (x : Int) (y : Int) := by
  obtain ⟨glen, gget⟩ := gridFold_getElem f f.stride f.next (Nat.le_refl _) hnext hb
  have hidx : f.stride * y + x < f.stride * f.stride := by
    have h1 : f.stride * (y + 1) = f.stride * y + f.stride := by ring
    have h2 : f.stride * (y + 1) ≤ f.stride * f.stride :=
      Nat.mul_le_mul_left f.stride (by omega)
    omega
  have hs : 0 < f.stride := by omega
  have hmod : (f.stride * y + x) % f.stride = x := by
    rw [Nat.mul_add_mod]
    exact Nat.mod_eq_of_lt hx
  have hdiv : (f.stride * y + x) / f.stride = y := by
    rw [Nat.mul_add_div hs, Nat.div_eq_of_lt hx]
    omega
  unfold fieldCellState fieldUpdate
  simp only
  rw [cellIndex_coe f.stride x y hx hy hb]
  rw [List.getD_eq_getElem?_getD]
  rw [gget (f.stride * y + x) hidx, if_pos hidx, hmod, hdiv]
  rfl

/-- After a push, logical index `count - 1` (the newest entry) yields
exactly the snapshot that was just pushed. -/
theorem historyGetItem_push_newest (h : History) (snap : List Nat)
    (hsz : 1 ≤ h.size) (hse : h.start ≤ h.end_)
    (hdata : h.data.length = h.elem_size * h.size)
    (hsnap : snap.length = h.elem_size) :
    historyGetItem (historyPush h snap) (historySize (historyPush h snap) - 1) =
      some snap := by
  have hwlt : h.end_ % h.size < h.size := Nat.mod_lt _ (by omega)
  have hwbound : (h.end_ % h.size) * h.elem_size + h.elem_size ≤ h.data.length := by
    rw [hdata]
    have h1 : (h.end_ % h.size) * h.elem_size + h.elem_size =
        (h.end_ % h.size + 1) * h.elem_size := by ring
    have h2 : (h.end_ % h.size + 1) * h.elem_size ≤ h.size * h.elem_size :=
      Nat.mul_le_mul_right h.elem_size (by omega)
    have h3 : h.size * h.elem_size = h.elem_size * h.size := Nat.mul_comm _ _
    omega
  unfold historyGetItem historySize historyPush historyDataIndex
  simp only
  have hstle :
      (if h.end_ + 1 - h.start > h.size
        then h.start + (h.end_ + 1 - h.start - h.size) else h.start) ≤ h.end_ := by
    split <;> omega
  rw [if_neg (by omega)]
  have hcursor :
      (if h.end_ + 1 - h.start > h.size
        then h.start + (h.end_ + 1 - h.start - h.size) else h.start) +
        (h.end_ + 1 -
          (if h.end_ + 1 - h.start > h.size
            then h.start + (h.end_ + 1 - h.start - h.size) else h.start) - 1) =
        h.end_ := by
    split at hstle <;> split <;> omega
  rw [hcursor]
  have := slotRead_write_self (w := h.end_ % h.size) hwbound hsnap
  unfold slotRead at this
  rw [this]

theorem gameApplyInputs_history (g : Game) (inp : Input) :
    (gameApplyInputs g inp).history = g.history := by
  unfold gameApplyInputs
  rcases inp.mouse with _ | ⟨click, mx, my⟩ <;> dsimp only <;>
    (repeat' split) <;> rfl

theorem gameApplyInputs_stride (g : Game) (inp : Input) :
    (gameApplyInputs g inp).field.stride = g.field.stride := by
  unfold gameApplyInputs fieldCellSet
  rcases inp.mouse with _ | ⟨click, mx, my⟩ <;> dsimp only <;>
    (repeat' split) <;> rfl

theorem gameApplyInputs_current_length (g : Game) (inp : Input) :
    (gameApplyInputs g inp).field.current.length = g.field.current.length := by
  unfold gameApplyInputs fieldCellSet
  rcases inp.mouse with _ | ⟨click, mx, my⟩ <;> dsimp only <;>
    (repeat' split) <;> simp [List.length_set]

/-! ### Claims -/

/-- The 3-by-3 vertical blinker of the spec scenario: `ALIVE` at
(1,0), (1,1), (1,2), everything else `EMPTY` (row-major `current`). -/
def blinker3 : Field :=
  { stride := 3
    current := [EMPTY, ALIVE, EMPTY, EMPTY, ALIVE, EMPTY, EMPTY, ALIVE, EMPTY]
    next := List.replicate 9 EMPTY }

/-- C1: for every alive-neighbor count (0-8) and every current state among
the four enumeration values, the next state is `ALIVE` exactly when the
count is 3 or the count is 2 with the cell currently `ALIVE`; in every
other case the state decays one step along the chain
`ALIVE → DIYING → DEAD → DEAD`, with `EMPTY` staying `EMPTY`. -/
theorem transition_rule_c1 (count state : Nat) (hcount : count ≤ 8)
    (hstate : state = EMPTY ∨ state = DEAD ∨ state = DIYING ∨ state = ALIVE) :
    (stateNext count state = ALIVE ↔ (count = 3 ∨ (count = 2 ∧ state = ALIVE))) ∧
    (¬(count = 3 ∨ (count = 2 ∧ state = ALIVE)) →
      ((state = ALIVE → stateNext count state = DIYING) ∧
       (state = DIYING → stateNext count state = DEAD) ∧
       (state = DEAD → stateNext count state = DEAD) ∧
       (state = EMPTY → stateNext count state = EMPTY))) := by
  unfold stateNext EMPTY DEAD DIYING ALIVE at *
  rcases hstate with h | h | h | h <;> subst h <;>
    by_cases h3 : count = 3 <;> by_cases h2 : count = 2 <;> simp_all

/-- Witness for C1 at concrete inputs: survival at count 2, decay of an
`ALIVE` cell at count 0. -/
theorem transition_rule_c1_witness :
    stateNext 2 ALIVE = ALIVE ∧ stateNext 0 ALIVE = DIYING := by
  have h2 := transition_rule_c1 2 ALIVE (by decide) (by decide)
  have h0 := transition_rule_c1 0 ALIVE (by decide) (by decide)
  exact ⟨h2.1.mpr (Or.inr ⟨rfl, rfl⟩), (h0.2 (by decide)).1 rfl⟩

/-- C2: the coordinate wrap is NOT floored modulo and the toroidal
periodicity `get(x, y) = get(x + k*s, y + m*s)` fails for `k = -2`:
at stride 3 and `x = 1 - 2*3 = -5`, `modi32` returns `-2` (the truncating
remainder of `b + a`) where the spec formula `((x % s) + s) % s` gives `1`;
the resulting `u32` cell index is `2^32 - 2`, so the source's
`assertf (idx < len)` fails and the program aborts instead of reading
cell (1, 0).  (In the embedding the out-of-range read returns the `getD`
default, and the claimed equality of states fails as well.) -/
theorem modulo_wrap_c2 :
    modi32 (-5) 3 = -2 ∧
    specFlooredMod (-5) 3 = 1 ∧
    modi32 (-5) 3 ≠ specFlooredMod (-5) 3 ∧
    cellIndex 3 (-5) 0 = 4294967294 ∧
    ¬ cellIndex 3 (-5) 0 < 3 * 3 ∧
    fieldCellState blinker3 (-5) 0 ≠ fieldCellState blinker3 1 0 := by
  refine ⟨by decide, by decide, by decide, ?_, ?_, by decide⟩ <;> decide

/-- C6, counterexample: on the 3-torus the wrapped column gives (1,0) two
alive neighbors ((1,1) and, across the edge, (1,2)), so after one tick
(1,0) is `ALIVE` — not `DIYING` as the claim states. -/
theorem blinker_c6_counterexample :
    fieldCellState (fieldUpdate blinker3) 1 0 = ALIVE ∧ ALIVE ≠ DIYING := by
  exact ⟨by decide, by decide⟩

/-- C6, amended: after one tick of the stride-3 blinker, (0,1) and (2,1)
become `ALIVE` (count-3 births) and (1,1) stays `ALIVE`, as claimed —
but (1,0) and (1,2) also stay `ALIVE` (each has exactly 2 alive neighbors
through the toroidal wrap and is currently `ALIVE`), rather than decaying
to `DIYING`. -/
theorem blinker_c6_amended :
    fieldCellState (fieldUpdate blinker3) 0 1 = ALIVE ∧
    fieldCellState (fieldUpdate blinker3) 2 1 = ALIVE ∧
    fieldCellState (fieldUpdate blinker3) 1 1 = ALIVE ∧
    fieldCellState (fieldUpdate blinker3) 1 0 = ALIVE ∧
    fieldCellState (fieldUpdate blinker3) 1 2 = ALIVE := by
  refine ⟨by decide, by decide, by decide, by decide, by decide⟩

/-- C7, counterexample: `fieldInit 0` does NOT fail — it returns a field
with `stride = 0` and empty buffers; only later queries would break (the
bounds assertion `idx < len` is unsatisfiable on a 0-cell field). -/
theorem field_init_c7_counterexample :
    (fieldInit 0).stride = 0 ∧
    (fieldInit 0).current = [] ∧
    (fieldInit 0).next = [] ∧
    ¬ cellIndex 0 0 0 < (fieldInit 0).stride * (fieldInit 0).stride := by
  refine ⟨by decide, by decide, by decide, by decide⟩

/-- C7, amended: `fieldInit` performs no `stride == 0` check (a degenerate
field is constructed, see the counterexample); for every `s > 0` it
allocates two zero-filled `s * s`-cell buffers, so immediately after
initialization `get` returns `EMPTY` on every coordinate on which the wrap
stays in bounds (all `x, y ≥ -s`). -/
theorem field_init_c7_amended (s : Nat) (x y : Int)
    (hs : 0 < s) (hx : -(s : Int) ≤ x) (hy : -(s : Int) ≤ y) (hb : s * s < U32) :
    (fieldInit s).current.length = s * s ∧
    (fieldInit s).next.length = s * s ∧
    fieldCellState (fieldInit s) x y = EMPTY := by
  refine ⟨by simp [fieldInit], by simp [fieldInit], ?_⟩
  unfold fieldCellState fieldInit EMPTY
  exact getD_replicate_zero _ _

/-- Witness for the amended C7 at `s = 2`, a negative and an out-of-range
coordinate. -/
theorem field_init_c7_amended_witness :
    fieldCellState (fieldInit 2) (-1) 3 = EMPTY := by
  exact (field_init_c7_amended 2 (-1) 3 (by decide) (by decide) (by decide) (by decide)).2.2

/-- C3: after `advance()` (`fieldUpdate`), every in-range cell equals the
transition rule applied to that cell's pre-advance state and the
alive-neighbor count taken entirely from the pre-advance field
(`fieldNext f` reads only the old `f.current`), so the update is the pure
per-cell function of the old grid applied simultaneously to all cells. -/
theorem advance_pure_c3 (f : Field)
    (hcur : f.current.length = f.stride * f.stride)
    (hnext : f.next.length = f.stride * f.stride)
    (hb : f.stride * f.stride < U32)
    (x y : Nat) (hx : x < f.stride) (hy : y < f.stride) :
    fieldCellState (fieldUpdate f) (x : Int) (y : Int) =
      fieldNext f (x : Int) (y : Int) :=
  fieldUpdate_cellState f hnext hb x y hx hy

/-- Witness for C3 on the concrete blinker field. -/
theorem advance_pure_c3_witness :
    fieldCellState (fieldUpdate blinker3) ((1 : Nat) : Int) ((2 : Nat) : Int) =
      fieldNext blinker3 ((1 : Nat) : Int) ((2 : Nat) : Int) :=
  advance_pure_c3 blinker3 (by decide) (by decide) (by decide) 1 2 (by decide) (by decide)

/-- C4, counterexample: past the `u32` cursor wrap the claim fails on the
code.  With capacity `c = 3` and `k = 2^32 - 1` (so `c + k = 2^32 + 2`
pushes of the `wrapSnaps` stream), `count() = 3` entries are retrievable,
but `get(0)` returns `[0]` — the data of generation `k + 1`
(`wrapSnaps` index `2^32`, byte `2^32 % 2 = 0`) — while the claim says it
returns generation `k`'s data `[1]` (`(2^32 - 1) % 2 = 1`): push number
`2^32` reuses cursor value `0`, so its slot `0 % 3` overwrites the slot
`(2^32 - 1) % 3 = 0` of the still-retained generation `k`. -/
theorem history_eviction_c4_wrap_counterexample :
    historySizeU32 (historyPushAllU32 (historyCreate 1 3) (wrapSnaps (U32 + 2))) = 3 ∧
    historyGetItemU32 (historyPushAllU32 (historyCreate 1 3) (wrapSnaps (U32 + 2))) 0 =
      some [0] ∧
    (wrapSnaps (U32 + 2))[U32 - 1]? = some [1] ∧
    (wrapSnaps (U32 + 2))[U32]? = some [0] ∧
    historyGetItemU32 (historyPushAllU32 (historyCreate 1 3) (wrapSnaps (U32 + 2))) 0 ≠
      (wrapSnaps (U32 + 2))[U32 - 1]? := by
  -- peel the three pushes past the wrap off the snapshot stream
  have hsplitC : wrapSnaps (U32 + 2) = wrapSnaps (U32 + 1) ++ [[(U32 + 1) % 2]] :=
    wrapSnaps_succ (U32 + 1)
  have hsplitB : wrapSnaps (U32 + 1) = wrapSnaps U32 ++ [[U32 % 2]] :=
    wrapSnaps_succ U32
  have hsplitA : wrapSnaps U32 = wrapSnaps (U32 - 1) ++ [[(U32 - 1) % 2]] := by
    conv_lhs => rw [show U32 = (U32 - 1) + 1 by decide]
    exact wrapSnaps_succ (U32 - 1)
  have hp : historyPushAllU32 (historyCreate 1 3) (wrapSnaps (U32 + 2)) =
      historyPushU32 (historyPushU32 (historyPushU32
        (historyPushAllU32 (historyCreate 1 3) (wrapSnaps (U32 - 1)))
        [(U32 - 1) % 2]) [U32 % 2]) [(U32 + 1) % 2] := by
    rw [hsplitC, hsplitB, hsplitA]
    simp [historyPushAllU32, List.foldl_append]
  -- before the wrap the bit-exact model agrees with the idealization,
  -- whose state after 2^32 - 1 pushes is fully characterized
  have hagree := historyPushAllU32_eq 1 3 (by omega) (wrapSnaps (U32 - 1))
    (wrapSnaps_sized _) (by rw [wrapSnaps_length]; decide)
  rw [hagree] at hp
  obtain ⟨hsz, hel, hend, hst, hdl, hslots⟩ :=
    historyPushAll_state 1 3 (by omega) (wrapSnaps (U32 - 1)) (wrapSnaps_sized _)
  rw [wrapSnaps_length] at hend hst hslots
  set A := historyPushAll (historyCreate 1 3) (wrapSnaps (U32 - 1)) with hA
  obtain ⟨a0, a1, a2, hdata⟩ := list_length_three (by simpa using hdl)
  -- the three retained slots hold generations 2^32-4, 2^32-3, 2^32-2
  have hs0 := hslots (U32 - 4) (by decide) (by decide)
  rw [wrapSnaps_getElem _ _ (by decide), hdata,
    show (U32 - 4) % 3 = 0 by decide, show (U32 - 4) % 2 = 0 by decide] at hs0
  have hs1 := hslots (U32 - 3) (by decide) (by decide)
  rw [wrapSnaps_getElem _ _ (by decide), hdata,
    show (U32 - 3) % 3 = 1 by decide, show (U32 - 3) % 2 = 1 by decide] at hs1
  have hs2 := hslots (U32 - 2) (by decide) (by decide)
  rw [wrapSnaps_getElem _ _ (by decide), hdata,
    show (U32 - 2) % 3 = 2 by decide, show (U32 - 2) % 2 = 0 by decide] at hs2
  simp only [slotRead, mul_one, List.drop_zero, List.drop_succ_cons, List.take_succ_cons,
    List.take_zero, Option.some.injEq, List.cons.injEq, and_true] at hs0 hs1 hs2
  rw [hs0, hs1, hs2] at hdata
  -- the pushes numbered 2^32-1, 2^32 and 2^32+1, computed bit-exactly
  have hB1 : historyPushU32 A [(U32 - 1) % 2] = ⟨3, 1, U32 - 3, 0, [1, 1, 0]⟩ := by
    unfold historyPushU32 historyDataIndex
    rw [hsz, hel, hend, hst, hdata]
    decide
  have hB2 : historyPushU32 ⟨3, 1, U32 - 3, 0, [1, 1, 0]⟩ [U32 % 2] =
      ⟨3, 1, U32 - 2, 1, [0, 1, 0]⟩ := by decide
  have hB3 : historyPushU32 ⟨3, 1, U32 - 2, 1, [0, 1, 0]⟩ [(U32 + 1) % 2] =
      ⟨3, 1, U32 - 1, 2, [0, 1, 0]⟩ := by decide
  rw [hp, hB1, hB2, hB3]
  refine ⟨by decide, by decide, ?_, ?_, ?_⟩
  · rw [wrapSnaps_getElem _ _ (by decide)]
    decide
  · rw [wrapSnaps_getElem _ _ (by decide)]
    decide
  · rw [wrapSnaps_getElem _ _ (by decide)]
    decide

/-- C4, amended: pushing `c + k` well-sized generations onto a fresh
history of capacity `c ≥ 1` retains exactly `c` entries with logical index
`i` retrieving the data of generation `k + i` (index 0 is generation `k`,
index `c - 1` the newest push) — for every `k` with `c + k < 2^32`, i.e.
while the source's `u32` push counter has not wrapped.  Stated on the
bit-exact `u32` model; the counterexample above shows the restriction is
necessary. -/
theorem history_eviction_c4_bounded (c k es : Nat) (snaps : List (List Nat))
    (hc : 1 ≤ c) (hlen : snaps.length = c + k) (hes : ∀ s ∈ snaps, s.length = es)
    (hwrap : c + k < U32) :
    historySizeU32 (historyPushAllU32 (historyCreate es c) snaps) = c ∧
    ∀ i, i < c →
      historyGetItemU32 (historyPushAllU32 (historyCreate es c) snaps) i =
        snaps[k + i]? := by
  obtain ⟨hsz, hel, hend, hst, hdl, hslots⟩ := historyPushAll_state es c hc snaps hes
  have hagree := historyPushAllU32_eq es c hc snaps hes (by omega)
  have hse : (historyPushAll (historyCreate es c) snaps).start ≤
      (historyPushAll (historyCreate es c) snaps).end_ := by
    rw [hend, hst]
    omega
  have hendlt : (historyPushAll (historyCreate es c) snaps).end_ < U32 := by
    rw [hend]
    omega
  rw [hagree]
  constructor
  · rw [historySizeU32_eq _ hse hendlt, historySize, hend, hst, hlen]
    omega
  · intro i hi
    rw [historyGetItemU32_eq _ i hse hendlt]
    have hsl := hslots (k + i) (by omega) (by omega)
    unfold slotRead at hsl
    unfold historyGetItem historyDataIndex
    rw [hend, hst, hel, hsz, hlen]
    rw [if_neg (by omega)]
    have harg : c + k - c + i = k + i := by omega
    rw [harg]
    exact hsl

/-- Witness for the amended C4: the spec scenario — capacity 2, pushes
A, B, C — well below the wrap. -/
theorem history_eviction_c4_bounded_witness :
    historySizeU32 (historyPushAllU32 (historyCreate 1 2) [[5], [6], [7]]) = 2 ∧
    historyGetItemU32 (historyPushAllU32 (historyCreate 1 2) [[5], [6], [7]]) 0 = some [6] ∧
    historyGetItemU32 (historyPushAllU32 (historyCreate 1 2) [[5], [6], [7]]) 1 = some [7] := by
  have h := history_eviction_c4_bounded 2 1 1 [[5], [6], [7]] (by decide) (by decide)
    (by decide) (by decide)
  refine ⟨h.1, ?_, ?_⟩
  · rw [h.2 0 (by decide)]
    decide
  · rw [h.2 1 (by decide)]
    decide

/-- C5: on every reachable history, `get i` is not-found exactly when
`i ≥ count()` (`count() = end - start`), and for `i < count()` it returns a
valid `elem_size`-byte snapshot. -/
theorem history_bounds_c5 (es size : Nat) (h : History) (i : Nat)
    (hsz : 1 ≤ size) (hr : HistReachable es size h) :
    (historyGetItem h i = none ↔ historySize h ≤ i) ∧
    (i < historySize h → ∃ s, historyGetItem h i = some s ∧ s.length = es) := by
  obtain ⟨h1, h2, h3, h4, h5⟩ := histReachable_inv hsz hr
  constructor
  · unfold historyGetItem historySize
    dsimp only
    split
    · rename_i hge
      exact ⟨fun _ => (by omega), fun _ => rfl⟩
    · rename_i hlt
      constructor
      · intro hc
        exact Option.noConfusion hc
      · intro hc
        exact absurd hc (by omega)
  · intro hi
    rw [historySize] at hi
    unfold historyGetItem historyDataIndex
    dsimp only
    rw [if_neg (by omega)]
    refine ⟨_, rfl, ?_⟩
    have hdi : (h.start + i) % h.size < h.size := Nat.mod_lt _ (by omega)
    have hbound : ((h.start + i) % h.size) * h.elem_size + h.elem_size ≤ h.data.length := by
      rw [h5, h2]
      have ha : ((h.start + i) % h.size) * es + es = ((h.start + i) % h.size + 1) * es := by
        ring
      have hb : ((h.start + i) % h.size + 1) * es ≤ size * es :=
        Nat.mul_le_mul_right es (by omega)
      have hcm : size * es = es * size := Nat.mul_comm size es
      omega
    simp only [List.length_take, List.length_drop]
    omega

/-- Witness for C5: after one push on a fresh capacity-2 history,
index 0 is retrievable (a 1-byte snapshot) and index 1 is not-found. -/
theorem history_bounds_c5_witness :
    (∃ s, historyGetItem (historyPush (historyCreate 1 2) [9]) 0 = some s ∧
      s.length = 1) ∧
    historyGetItem (historyPush (historyCreate 1 2) [9]) 1 = none := by
  have hr : HistReachable 1 2 (historyPush (historyCreate 1 2) [9]) :=
    HistReachable.push _ [9] HistReachable.create (by decide)
  have h0 := history_bounds_c5 1 2 _ 0 (by decide) hr
  have h1 := history_bounds_c5 1 2 _ 1 (by decide) hr
  exact ⟨h0.2 (by decide), h1.1.mpr (by decide)⟩

/-- C9: `end - start ≤ size` (and, reading the `u32` cursors as the
monotone counters they are, `start ≤ end`) holds for a fresh history and
is preserved by every push; when the push would overflow, `start` advances
by exactly the overflow amount `(end + 1 - start) - size` (which is 0 when
no overflow occurs). -/
theorem history_invariant_c9 (es size : Nat) (h : History) (snapshot : List Nat)
    (hse : h.start ≤ h.end_) (hinv : historySize h ≤ h.size) :
    historySize (historyCreate es size) = 0 ∧
    (historyCreate es size).start ≤ (historyCreate es size).end_ ∧
    (historyPush h snapshot).start ≤ (historyPush h snapshot).end_ ∧
    historySize (historyPush h snapshot) ≤ h.size ∧
    (historyPush h snapshot).start = h.start + ((h.end_ + 1 - h.start) - h.size) := by
  rw [historySize] at hinv
  refine ⟨rfl, Nat.le_refl _, ?_, ?_, ?_⟩
  · unfold historyPush
    dsimp only
    split <;> omega
  · unfold historySize historyPush
    dsimp only
    split <;> omega
  · unfold historyPush
    dsimp only
    split <;> omega

/-- Witness for C9 at a full capacity-1 history: the push advances `start`
by exactly the overflow 1. -/
theorem history_invariant_c9_witness :
    historySize (historyPush ⟨1, 1, 0, 1, [7]⟩ [8]) ≤ 1 ∧
    (historyPush ⟨1, 1, 0, 1, [7]⟩ [8]).start = 1 := by
  have h := history_invariant_c9 1 1 ⟨1, 1, 0, 1, [7]⟩ [8] (by decide) (by decide)
  exact ⟨h.2.2.2.1, h.2.2.2.2⟩

/-- C10: the transition rule is total over every byte a cell can hold: for
any byte outside the four enumeration values (such as the unused value 1)
it returns `EMPTY` unless the count-3 birth makes it `ALIVE` (the survival
arm cannot fire since such a byte is not `ALIVE`); consequently after one
`fieldUpdate` every in-range cell holds one of the four valid states. -/
theorem transition_total_c10 :
    (∀ count state : Nat,
      state ≠ EMPTY → state ≠ DEAD → state ≠ DIYING → state ≠ ALIVE →
      stateNext count state = if count = 3 then ALIVE else EMPTY) ∧
    (∀ f : Field, f.current.length = f.stride * f.stride →
      f.next.length = f.stride * f.stride → f.stride * f.stride < U32 →
      ∀ x y : Nat, x < f.stride → y < f.stride →
        fieldCellState (fieldUpdate f) (x : Int) (y : Int) = EMPTY ∨
        fieldCellState (fieldUpdate f) (x : Int) (y : Int) = DEAD ∨
        fieldCellState (fieldUpdate f) (x : Int) (y : Int) = DIYING ∨
        fieldCellState (fieldUpdate f) (x : Int) (y : Int) = ALIVE) := by
  have hmem : ∀ c s : Nat, stateNext c s = EMPTY ∨ stateNext c s = DEAD ∨
      stateNext c s = DIYING ∨ stateNext c s = ALIVE := by
    intro c s
    unfold stateNext
    split_ifs <;> simp
  constructor
  · intro count state h0 hd hdy ha
    unfold stateNext
    by_cases hc : count = 3
    · rw [if_pos (Or.inl hc), if_pos hc]
    · rw [if_neg (by rintro (h | ⟨h2, hs⟩); exact hc h; exact ha hs), if_neg hc,
        if_neg ha, if_neg hdy, if_neg hd]
  · intro f hcur hnext hb x y hx hy
    rw [fieldUpdate_cellState f hnext hb x y hx hy]
    exact hmem _ _

/-- Witness for C10: the unused byte 1 decays to `EMPTY` at count 2, and a
concrete updated cell is among the four valid states. -/
theorem transition_total_c10_witness :
    stateNext 2 1 = EMPTY ∧
    (fieldCellState (fieldUpdate blinker3) ((0 : Nat) : Int) ((0 : Nat) : Int) = EMPTY ∨
     fieldCellState (fieldUpdate blinker3) ((0 : Nat) : Int) ((0 : Nat) : Int) = DEAD ∨
     fieldCellState (fieldUpdate blinker3) ((0 : Nat) : Int) ((0 : Nat) : Int) = DIYING ∨
     fieldCellState (fieldUpdate blinker3) ((0 : Nat) : Int) ((0 : Nat) : Int) = ALIVE) := by
  constructor
  · have h := transition_total_c10.1 2 1 (by decide) (by decide) (by decide) (by decide)
    rw [h]
    decide
  · exact transition_total_c10.2 blinker3 (by decide) (by decide) (by decide) 0 0
      (by decide) (by decide)

/-- C8: whenever the controller advances a generation (Enter step while
paused, or an elapsed tick interval while running — i.e. whenever
`should_update` holds after the frame's input handling), the history
receives the current field *before* the field advances: the new history is
`historyPush` of the pre-advance field, the new field is `fieldUpdate` of
it, and the newest history entry equals the field state immediately before
the advancement. -/
theorem tick_order_c8 (g : Game) (inp : Input)
    (hup : gameShouldUpdate (gameApplyInputs g inp) inp = true)
    (hsz : 1 ≤ g.history.size)
    (hse : g.history.start ≤ g.history.end_)
    (hdata : g.history.data.length = g.history.elem_size * g.history.size)
    (hes : g.history.elem_size = g.field.stride * g.field.stride)
    (hcur : g.field.current.length = g.field.stride * g.field.stride) :
    (gameUpdate g inp).history =
      historyPush (gameApplyInputs g inp).history (gameApplyInputs g inp).field.current ∧
    (gameUpdate g inp).field = fieldUpdate (gameApplyInputs g inp).field ∧
    historyGetItem (gameUpdate g inp).history
        (historySize (gameUpdate g inp).history - 1) =
      some (gameApplyInputs g inp).field.current := by
  have hgu : gameUpdate g inp =
      { gameSaveHistoryState (gameApplyInputs g inp) with
          field := fieldUpdate (gameApplyInputs g inp).field
          last_tick_at := inp.time } := by
    unfold gameUpdate
    rw [if_pos hup]
    rfl
  have hh := gameApplyInputs_history g inp
  have hst := gameApplyInputs_stride g inp
  have hcl := gameApplyInputs_current_length g inp
  have hsnap : (gameApplyInputs g inp).field.current.length =
      (gameApplyInputs g inp).history.elem_size := by
    rw [hcl, hh, hcur, hes]
  refine ⟨by rw [hgu]; rfl, by rw [hgu], ?_⟩
  have hnewest := historyGetItem_push_newest (gameApplyInputs g inp).history
    (gameApplyInputs g inp).field.current
    (by rw [hh]; exact hsz) (by rw [hh]; exact hse) (by rw [hh]; exact hdata) hsnap
  rw [hgu]
  exact hnewest

/-- Witness for C8: a paused 1-cell game stepped with Enter. -/
theorem tick_order_c8_witness :
    historyGetItem (gameUpdate ⟨⟨1, [4], [0]⟩, ⟨2, 1, 0, 0, [0, 0]⟩, false, 0, 0, true, 1, 0⟩
        ⟨false, true, none, 0⟩).history
      (historySize (gameUpdate ⟨⟨1, [4], [0]⟩, ⟨2, 1, 0, 0, [0, 0]⟩, false, 0, 0, true, 1, 0⟩
        ⟨false, true, none, 0⟩).history - 1) = some [4] := by
  have h := tick_order_c8 ⟨⟨1, [4], [0]⟩, ⟨2, 1, 0, 0, [0, 0]⟩, false, 0, 0, true, 1, 0⟩
    ⟨false, true, none, 0⟩ (by decide) (by decide) (by decide) (by decide) (by decide)
    (by decide)
  have hc : (gameApplyInputs ⟨⟨1, [4], [0]⟩, ⟨2, 1, 0, 0, [0, 0]⟩, false, 0, 0, true, 1, 0⟩
      ⟨false, true, none, 0⟩).field.current = [4] := rfl
  rw [h.2.2, hc]

end Cube
